import Mathlib

/-!
Shallow embedding of the pylibust library (src/ust.py and src/converter.py).

Python text is modelled as `List Char`, Python numbers as `PyNum`
(an `int` is an integer, a `float` is a decimal `m / 10 ^ e` — every float
value that this library ever builds comes from a decimal literal or from a
division by ten, so this carrier is exact for it), and every fallible Python
operation returns `Except PyErr`.  All definitions are executable and every
concrete run of the embedded code reduces inside the kernel.
-/

set_option maxRecDepth 10000

/-- Python runtime errors raised by the embedded code. -/
inductive PyErr
  | typeErr
  | valueErr
  | keyErr
  | indexErr
  | attributeErr
  | parseErr
  | stopIter
  | zeroDivErr
deriving DecidableEq

/-- Python strings are lists of characters. -/
abbrev Str := List Char

/-- Split a character list at every character satisfying `p`
(the separators are dropped; `n` separators yield `n + 1` chunks,
exactly like Python `str.split(sep)`). -/
def sSplitP (p : Char → Bool) : Str → List Str
  | [] => [[]]
  | c :: cs =>
    if p c then [] :: sSplitP p cs
    else
      match sSplitP p cs with
      | [] => [[c]]
      | t :: ts => (c :: t) :: ts

/-- Python `s.split(c)` for a one-character separator. -/
def sSplit (c : Char) (s : Str) : List Str := sSplitP (fun d => d == c) s

/-- Python `c.join(tokens)` for a one-character separator. -/
def sJoin (c : Char) : List Str → Str
  | [] => []
  | [t] => t
  | t :: ts => t ++ c :: sJoin c ts

/-- Whitespace recognizer used by Python `str.strip` / `str.split()`. -/
def isSpc (c : Char) : Bool := c == ' ' || c == '\t' || c == '\n' || c == '\r'

/-- Python `s.strip()`. -/
def strip (s : Str) : Str :=
  (((s.dropWhile isSpc).reverse).dropWhile isSpc).reverse

/-- Python `s.split()` with no argument: split on whitespace runs,
dropping empty fields. -/
def words (s : Str) : List Str := (sSplitP isSpc s).filter (fun t => !t.isEmpty)

/-- The character for a decimal digit value (codepoint 48 is zero). -/
def digitChar (n : ℕ) : Char := Char.ofNat (48 + n)

/-- The value of a decimal digit character, `none` on a non-digit. -/
def digitVal (c : Char) : Option ℕ :=
  if 48 ≤ c.toNat ∧ c.toNat ≤ 57 then some (c.toNat - 48) else none

/-- Decimal digits of `n`, most significant first (`fuel` bounds the
recursion; callers pass `n + 1`). -/
def natDigits : ℕ → ℕ → Str
  | 0, _ => []
  | fuel + 1, n =>
    if n < 10 then [digitChar n]
    else natDigits fuel (n / 10) ++ [digitChar (n % 10)]

/-- Decimal rendering of a natural number. -/
def natToStr (n : ℕ) : Str := natDigits (n + 1) n

/-- Decimal rendering of an integer (Python `str` on an `int`). -/
def intToStr (n : ℤ) : Str :=
  if n < 0 then '-' :: natToStr n.natAbs else natToStr n.toNat

/-- One step of reading a decimal number left to right. -/
def digStep (a : Option ℕ) (c : Char) : Option ℕ :=
  a.bind fun x => (digitVal c).map fun d => x * 10 + d

/-- Value of a string of decimal digits (empty string reads as `0`;
any non-digit yields `none`). -/
def digitsVal (s : Str) : Option ℕ := s.foldl digStep (some 0)

/-- Pad a string to width `k` with leading zeros. -/
def padLeft (k : ℕ) (s : Str) : Str := List.replicate (k - s.length) '0' ++ s

/-- A Python number: an `int`, or a `float` holding the exact decimal value
`m / 10 ^ e`.  Every float this library builds is such a decimal (numeric
literals, and divisions by `10` in the converter). -/
inductive PyNum
  | i (n : ℤ)
  | f (m : ℤ) (e : ℕ)
deriving DecidableEq

/-- Numerator of a Python number viewed as a fraction. -/
def PyNum.nm : PyNum → ℤ
  | .i n => n
  | .f m _ => m

/-- (Positive) denominator of a Python number viewed as a fraction. -/
def PyNum.dn : PyNum → ℤ
  | .i _ => 1
  | .f _ e => (10 : ℤ) ^ e

/-- Rational value of a Python number (proof-side view). -/
def PyNum.val (v : PyNum) : ℚ := (v.nm : ℚ) / (v.dn : ℚ)

/-- Python unary minus. -/
def PyNum.neg : PyNum → PyNum
  | .i n => .i (-n)
  | .f m e => .f (-m) e

/-- Python `>` between a number and an integer literal
(cross-multiplication; denominators are positive). -/
def PyNum.gtInt (v : PyNum) (c : ℤ) : Bool := decide (c * v.dn < v.nm)

/-- Python `==` between two numbers (value equality across int/float). -/
def PyNum.eqNum (a b : PyNum) : Bool := decide (a.nm * b.dn = b.nm * a.dn)

/-- Parse an unsigned numeric literal: digits, or digits `.` digits
(either side of the dot may be empty, but not both).  A fractional literal
becomes a float with at least one decimal digit, an integer literal an int.
Models Python `eval` restricted to the numeric literals this library feeds it. -/
def parseUnsigned (s : Str) : Option PyNum :=
  match sSplit '.' s with
  | [a] =>
    if a.isEmpty then none
    else (digitsVal a).map fun n => PyNum.i (n : ℤ)
  | [a, b] =>
    if a.isEmpty && b.isEmpty then none
    else
      match digitsVal a, digitsVal b with
      | some x, some y =>
        some (PyNum.f ((x : ℤ) * 10 ^ (max 1 b.length) + (y : ℤ) * 10 ^ (max 1 b.length - b.length)) (max 1 b.length))
      | _, _ => none
  | _ => none

/-- Parse a signed numeric literal (an optional leading minus sign). -/
def parseNum (s : Str) : Option PyNum :=
  match s with
  | [] => none
  | c :: rest => if c == '-' then (parseUnsigned rest).map PyNum.neg else parseUnsigned (c :: rest)

/-- Render the nonnegative float `m / 10 ^ e` as `⟨integer part⟩.⟨e zero-padded
fraction digits⟩` (at least one fraction digit, as Python `repr` does). -/
def fltToStr (m : ℤ) (e : ℕ) : Str :=
  natToStr (m.toNat / 10 ^ e) ++ '.' :: padLeft e (natToStr (m.toNat % 10 ^ e))

/-- Python `str` on a number. -/
def PyNum.toStr : PyNum → Str
  | .i n => intToStr n
  | .f m e => if m < 0 then '-' :: fltToStr (-m) e else fltToStr m e

/-- Python `eval` on one sequence token, as an `Except` computation. -/
def evalNumE (s : Str) : Except PyErr PyNum :=
  match parseNum s with
  | some v => .ok v
  | none => .error .parseErr

/-- Python `int(s)` (rejects fractional literals). -/
def intOfStr (s : Str) : Except PyErr ℤ :=
  match parseNum (strip s) with
  | some (.i n) => .ok n
  | _ => .error .valueErr

/-- Python `float(s)` (always yields a float; an integer literal gains
one zero decimal). -/
def floatOfStr (s : Str) : Except PyErr PyNum :=
  match parseNum (strip s) with
  | some (.i n) => .ok (.f (10 * n) 1)
  | some (.f m e) => .ok (.f m e)
  | none => .error .valueErr

/-- An element of an `envelopeSeq`: a number, or the literal `%` marker
that the envelope format allows in one position. -/
inductive EnvItem
  | n (v : PyNum)
  | pct
deriving DecidableEq

/-- attributeSeq.__init__ (src/ust.py): split on commas, an empty token
appends the int 0, any other token is handed to `eval`. -/
def aseqOfStr (s : Str) : Except PyErr (List PyNum) :=
  (sSplit ',' s).mapM fun t => if t.isEmpty then .ok (.i 0) else evalNumE t

/-- envelopeSeq.__init__ (src/ust.py): split on commas, the literal token
`%` is kept verbatim, anything else (including an empty token) goes to `eval`. -/
def eseqOfStr (s : Str) : Except PyErr (List EnvItem) :=
  (sSplit ',' s).mapM fun t =>
    if t = ['%'] then .ok EnvItem.pct else (evalNumE t).map EnvItem.n

/-- PBSSeq.__init__ (src/ust.py): split on semicolons, an empty token
appends 0, others go to `eval`; after building, more than two fields raise
`ValueError`. -/
def pbsOfStr (s : Str) : Except PyErr (List PyNum) := do
  let l ← (sSplit ';' s).mapM fun t => if t.isEmpty then .ok (PyNum.i 0) else evalNumE t
  if l.length > 2 then throw .valueErr else pure l

/-- attributeSeq.__str__ (src/ust.py): join the members with commas. -/
def aseqToStr (l : List PyNum) : Str := sJoin ',' (l.map PyNum.toStr)

/-- Python `str` of one envelope member. -/
def envTok : EnvItem → Str
  | .n v => v.toStr
  | .pct => ['%']

/-- envelopeSeq serialization (inherited attributeSeq.__str__). -/
def eseqToStr (l : List EnvItem) : Str := sJoin ',' (l.map envTok)

/-- PBSSeq.__str__ (src/ust.py): join the members with semicolons. -/
def pbsToStr (l : List PyNum) : Str := sJoin ';' (l.map PyNum.toStr)

/-- A value stored in a note attribute or in the settings mapping:
a number, a raw string, or one of the three sequence classes. -/
inductive Val
  | num (v : PyNum)
  | str (s : Str)
  | aseq (l : List PyNum)
  | eseq (l : List EnvItem)
  | pbs (l : List PyNum)
deriving DecidableEq

/-- Python `str` of an attribute value. -/
def valToStr : Val → Str
  | .num v => v.toStr
  | .str s => s
  | .aseq l => aseqToStr l
  | .eseq l => eseqToStr l
  | .pbs l => pbsToStr l

/-- A note is an insertion-ordered mapping from attribute names to values
(the dict wrapped by `ustNote`). -/
abbrev UNote := List (Str × Val)

/-- Dictionary lookup on an insertion-ordered association list. -/
def aget {β : Type} (d : List (Str × β)) (k : Str) : Option β :=
  (d.find? fun q => q.1 == k).map fun q => q.2

/-- Dictionary assignment: an existing key keeps its position and gets the
new value, a new key is appended (Python dict semantics). -/
def upsert {β : Type} (d : List (Str × β)) (k : Str) (v : β) : List (Str × β) :=
  if (d.find? fun q => q.1 == k).isSome then
    d.map fun q => if q.1 == k then (k, v) else q
  else d ++ [(k, v)]

/-- Remove a key from an association list. -/
def eraseK {β : Type} (d : List (Str × β)) (k : Str) : List (Str × β) :=
  d.filter fun q => !(q.1 == k)

/-- Is the value a Python number (`isinstance(v, (int, float))`)? -/
def isNumV : Val → Bool
  | .num _ => true
  | _ => false

/-- Is the value a Python `int`? -/
def isIntV : Val → Bool
  | .num (.i _) => true
  | _ => false

/-- Is the value a Python string? -/
def isStrV : Val → Bool
  | .str _ => true
  | _ => false

/-- `isinstance(v, attributeSeq)` — `envelopeSeq` and `PBSSeq` are
subclasses of `attributeSeq`, so they pass this check too. -/
def isASeqV : Val → Bool
  | .aseq _ => true
  | .eseq _ => true
  | .pbs _ => true
  | _ => false

/-- `isinstance(v, envelopeSeq)`. -/
def isEseqV : Val → Bool
  | .eseq _ => true
  | _ => false

/-- `isinstance(v, PBSSeq)`. -/
def isPbsV : Val → Bool
  | .pbs _ => true
  | _ => false

/-- Check one optional attribute against a kind predicate: absent is fine,
present with the wrong kind raises `TypeError`. -/
def optCheck (n : UNote) (k : Str) (good : Val → Bool) : Except PyErr Unit :=
  match aget n k with
  | some v => if good v then .ok () else .error .typeErr
  | none => .ok ()

/-- _attributeCheck (src/ust.py): the three required attributes must exist
(`KeyError` otherwise, since the source indexes the dict directly) and have
the right kinds, and every optional attribute present must match its kind. -/
def attributeCheck (n : UNote) : Except PyErr Unit := do
  let len ← match aget n "Length".data with | some v => pure v | none => throw PyErr.keyErr
  let lyr ← match aget n "Lyric".data with | some v => pure v | none => throw PyErr.keyErr
  let nn ← match aget n "NoteNum".data with | some v => pure v | none => throw PyErr.keyErr
  if !(isNumV len && isStrV lyr && isIntV nn) then throw PyErr.typeErr
  optCheck n "Overlap".data isNumV
  optCheck n "PreUtterance".data isNumV
  optCheck n "StartPoint".data isNumV
  optCheck n "Tempo".data isNumV
  optCheck n "Modulation".data isNumV
  optCheck n "Intensity".data isNumV
  optCheck n "Flags".data isStrV
  optCheck n "Envelope".data isEseqV
  optCheck n "@overlap".data isNumV
  optCheck n "@preuttr".data isNumV
  optCheck n "@stpoint".data isNumV
  optCheck n "PBType".data isIntV
  optCheck n "PBStart".data isIntV
  optCheck n "PitchBend".data isASeqV
  optCheck n "PBW".data isASeqV
  optCheck n "PBY".data isASeqV
  optCheck n "PBS".data isPbsV
  optCheck n "VBR".data isASeqV

/-- ustNote construction with verification on. -/
def mkNote (n : UNote) : Except PyErr UNote := do
  attributeCheck n
  pure n

/-- ustNote.__bool__ (src/ust.py): a note is truthy iff its Lyric value is
not one of the four literal rest markers in the source list. -/
def noteBool (n : UNote) : Except PyErr Bool :=
  match aget n "Lyric".data with
  | none => .error .keyErr
  | some v =>
    .ok (decide (v ≠ .str "".data ∧ v ≠ .str " ".data ∧ v ≠ .str "r".data ∧ v ≠ .str "R".data))

/-- The default version tuple of ustFile.__init__. -/
def defaultVersion : List Str := ["UST Version1.2".data, "Charset=UTF-8".data]

/-- The in-memory Sequence: a note list plus version lines and a settings
mapping (the state wrapped by `ustFile`). -/
structure UstFile where
  notes : List UNote
  version : List Str
  settings : List (Str × Val)
deriving DecidableEq

/-- ustFile.__init__ with an explicit version and settings argument: an
empty version tuple is replaced by the default one. -/
def mkUstFile (notes : List UNote) (version : List Str) (settings : List (Str × Val)) : UstFile :=
  { notes := notes
    version := if version.isEmpty then defaultVersion else version
    settings := settings }

/-- One `key=value` output line. -/
def kvLine (k : Str) (v : Val) : Str := k ++ '=' :: valToStr v

/-- The `[#nnnn]` sequence tag, zero-padded to four digits. -/
def noteTag (i : ℕ) : Str := '[' :: '#' :: (padLeft 4 (natToStr i) ++ [']'])

/-- ustFile.__repr__ (src/ust.py), one output line per list entry: the
version block, the settings block, then every note under its sequence tag.
No terminator tag is emitted. -/
def ustRepr (u : UstFile) : List Str :=
  ["[#VERSION]".data] ++ u.version
    ++ ["[#SETTING]".data] ++ u.settings.map (fun p => kvLine p.1 p.2)
    ++ u.notes.enum.flatMap (fun p => noteTag p.1 :: p.2.map fun q => kvLine q.1 q.2)

/-- Round-half-to-even of the fraction `a / b` (`b > 0` intended), the
behavior of Python `round` on an exact value. -/
def rheDiv (a b : ℤ) : ℤ :=
  let fl := a / b
  let r2 := 2 * (a - fl * b)
  if r2 < b then fl
  else if b < r2 then fl + 1
  else if fl % 2 = 0 then fl else fl + 1

/-- One note of ustFile.quantize: `note['Length'] = round(Length / standard)
* standard` (a missing Length raises KeyError, a non-numeric one TypeError
at the division). -/
def quantizeNote (s : ℤ) (n : UNote) : Except PyErr UNote := do
  let len ← match aget n "Length".data with
    | some (Val.num v) => pure v
    | some _ => throw PyErr.typeErr
    | none => throw PyErr.keyErr
  pure (upsert n "Length".data (Val.num (.i (rheDiv len.nm (len.dn * s) * s))))

/-- ustFile.quantize (src/ust.py): every note's Length is rounded to a
multiple of the standard.  The `del note` on a negative result deletes only
the loop variable, so no note is ever removed from the list. -/
def quantize (u : UstFile) (s : ℤ) : Except PyErr UstFile :=
  if s = 0 then .error .zeroDivErr
  else (u.notes.mapM (quantizeNote s)).map fun ns => { u with notes := ns }

/-- A right operand of ustFile.__add__: another ustFile, or a plain Python
list of notes (what `list.__add__` would accept). -/
inductive PyOperand
  | ofFile (g : UstFile)
  | ofList (l : List UNote)

/-- Python `list + other`: list concatenation only accepts another list;
any other operand (a ustFile has no __radd__) raises TypeError. -/
def pyListAdd (l : List UNote) (other : PyOperand) : Except PyErr (List UNote) :=
  match other with
  | .ofList l2 => .ok (l ++ l2)
  | _ => .error .typeErr

/-- ustFile.__add__ (src/ust.py): a non-ustFile operand raises TypeError;
a ustFile operand is then evaluated as `self._noteList + other`, a list
plus a ustFile. -/
def ustAdd (u : UstFile) (other : PyOperand) : Except PyErr (List UNote) :=
  match other with
  | .ofFile g => pyListAdd u.notes (.ofFile g)
  | _ => .error .typeErr

/-- The index at which Python `list.insert(i, x)` places `x`: a negative
index counts from the end, and any index is clamped into `[0, len]`. -/
def pyInsertPos (len : ℕ) (i : ℤ) : ℕ :=
  if i < 0 then ((len : ℤ) + i).toNat else min i.toNat len

/-- Python `list.insert(i, x)`. -/
def pyInsert (l : List UNote) (i : ℤ) (x : UNote) : List UNote :=
  l.insertIdx (pyInsertPos l.length i) x

/-- ustFile.insertMany (src/ust.py): every note of the iterable is inserted
at the same index `i`. -/
def insertMany (u : UstFile) (i : ℤ) (ns : List UNote) : UstFile :=
  { u with notes := ns.foldl (fun acc n => pyInsert acc i n) u.notes }

/-- A `\w` word character of the note-tag pattern. -/
def isWordChar (c : Char) : Bool := c.isAlphanum || c == '_'

/-- `re.match('\[#\w{4}]', s)`: the string starts with `[#`, four word
characters and `]` (a prefix match, anything may follow). -/
def isNoteTag (s : Str) : Bool :=
  match s with
  | '[' :: '#' :: a :: b :: c :: d :: ']' :: _ =>
    isWordChar a && isWordChar b && isWordChar c && isWordChar d
  | _ => false

/-- `row.split('=')` with every part stripped, as the parser buffers
setting and note lines (a tuple whose arity is the number of `=` plus one). -/
def splitKV (row : Str) : List Str := (sSplit '=' row).map strip

/-- Python `dict(pairs)` on a list of buffered tuples: every tuple must
have exactly two fields (ValueError otherwise); a repeated key keeps its
first position and takes the last value. -/
def dictFromTuples (ts : List (List Str)) : Except PyErr (List (Str × Str)) := do
  let pairs ← ts.mapM fun t =>
    match t with
    | [k, v] => Except.ok (k, v)
    | _ => Except.error PyErr.valueErr
  pure (pairs.foldl (fun d p => upsert d p.1 p.2) [])

/-- The mutable state of the `_parser` line loop (src/ust.py): the three
block flags, the notes-seen and notes-flushed counters, and the buffers. -/
structure PSt where
  verR : Bool
  setR : Bool
  noteR : Bool
  noteCount : ℕ
  recPos : ℕ
  singleNote : List (List Str)
  notes : List (List (Str × Str))
  version : List Str
  settingBuf : List (List Str)

/-- The initial parser state. -/
def initPSt : PSt :=
  { verR := false, setR := false, noteR := false, noteCount := 0, recPos := 0,
    singleNote := [], notes := [], version := [], settingBuf := [] }

/-- One iteration of the `_parser` loop: buffer a non-tag line according to
the current flags (flushing the previous note when a new tag was counted),
flush on the literal `[#TRACKEND]`, then update the flags from the tags. -/
def scanRow (st : PSt) (row : Str) : Except PyErr PSt := do
  let sp := strip row
  let st1 ←
    if sp.take 2 ≠ ['[', '#'] ∧ sp ≠ [] then do
      let a := if st.verR then { st with version := st.version ++ [sp] } else st
      let b := if a.setR then { a with settingBuf := a.settingBuf ++ [splitKV row] } else a
      let c ←
        if b.noteCount > b.recPos then
          if b.singleNote ≠ [] then do
            let d ← dictFromTuples b.singleNote
            pure { b with recPos := b.recPos + 1, notes := b.notes ++ [d], singleNote := [] }
          else pure { b with recPos := b.recPos + 1 }
        else pure b
      pure (if c.noteR then { c with singleNote := c.singleNote ++ [splitKV row] } else c)
    else pure st
  let st2 ←
    if sp = "[#TRACKEND]".data then do
      let d ← dictFromTuples st1.singleNote
      pure { st1 with notes := st1.notes ++ [d], singleNote := [] }
    else pure st1
  let st3 := if sp = "[#VERSION]".data then { st2 with verR := true, setR := false, noteR := false } else st2
  let st4 := if sp = "[#SETTING]".data then { st3 with verR := false, setR := true, noteR := false } else st3
  pure (if isNoteTag sp then
    { st4 with verR := false, setR := false, noteR := true, noteCount := st4.noteCount + 1 }
  else st4)

/-- The settings post-processing block of `_parser`: coerce Tempo, and when
its value exceeds 300 rebind the whole settings variable to the bare int
120 — after which the very next statement, `'Tracks' in settingDict`,
applies `in` to an int and raises TypeError; otherwise coerce Tracks and
Mode2 the same way.  The result is discarded by the parser's return. -/
def processSettings (d0 : List (Str × Str)) : Except PyErr (List (Str × Val)) := do
  let d : List (Str × Val) := d0.map fun p => (p.1, Val.str p.2)
  let d1 ←
    match aget d0 "Tempo".data with
    | some tv => do
      let v ← evalNumE tv
      if v.gtInt 300 then throw PyErr.typeErr
      else pure (upsert d "Tempo".data (Val.num v))
    | none => pure d
  let d2 ←
    match aget d1 "Tracks".data with
    | some (Val.str tv) => do
      let v ← evalNumE tv
      pure (upsert d1 "Tracks".data (Val.num v))
    | some _ => throw PyErr.typeErr
    | none => pure d1
  match aget d2 "Mode2".data with
  | some (Val.str tv) => do
    let v ← evalNumE tv
    pure (upsert d2 "Mode2".data (Val.num v))
  | some _ => throw PyErr.typeErr
  | none => pure d2

/-- The per-attribute coercion strategy table of `_parser`. -/
def strategyOf (k : Str) : Option (Str → Except PyErr Val) :=
  if k ∈ (["Length", "NoteNum", "Overlap", "PreUtterance", "StartPoint", "Tempo",
           "Modulation", "Intensity", "@overlap", "@preuttr", "@stpoint",
           "PBType", "PBStart"].map String.data) then
    some fun s => (evalNumE s).map Val.num
  else if k = "Envelope".data then some fun s => (eseqOfStr s).map Val.eseq
  else if k ∈ (["PitchBend", "PBW", "PBY", "VBR"].map String.data) then
    some fun s => (aseqOfStr s).map Val.aseq
  else if k = "PBS".data then some fun s => (pbsOfStr s).map Val.pbs
  else none

/-- The per-note coercion loop of `_parser`: attributes with an empty
string value are deleted, known attributes are coerced by the strategy
table, unknown ones stay raw strings. -/
def coerceNote (n : List (Str × Str)) : Except PyErr UNote :=
  (n.filter fun p => !p.2.isEmpty).mapM fun p =>
    match strategyOf p.1 with
    | some pol => (pol p.2).map fun v => (p.1, v)
    | none => Except.ok (p.1, Val.str p.2)

/-- _parser (src/ust.py) on the decoded lines of the file: run the line
loop, convert the settings buffer to a dict, run the settings
post-processing (whose value the source then discards), coerce every note
buffer, and return the notes, the version tuple and — as the source does —
the raw, uncoerced settings dict. -/
def ustParse (lines : List Str) :
    Except PyErr (List UNote × List Str × List (Str × Str)) := do
  let st ← lines.foldlM scanRow initPSt
  let settingPairs ← dictFromTuples st.settingBuf
  let _ ← processSettings settingPairs
  let notes ← st.notes.mapM coerceNote
  pure (notes, st.version, settingPairs)

/-- ustFile.open (src/ust.py): parse, then build the ustFile, verifying
every note; the parsed settings keep their raw string values. -/
def ustOpen (lines : List Str) : Except PyErr UstFile := do
  let (notes, ver, set) ← ustParse lines
  let checked ← notes.mapM mkNote
  pure (mkUstFile checked ver (set.map fun p => (p.1, Val.str p.2)))

/-- The pitch-thinning comprehension of converter.nn2ust (src/converter.py
line 70): keep an entry unless it equals zero and its index is not a
multiple of the stride. -/
def shortenFilter (k : ℕ) (l : List PyNum) : List PyNum :=
  (l.enum.filter fun p => !(p.2.eqNum (.i 0) && p.1 % k != 0)).map Prod.snd

/-- The argument converter.py passes to a sequence constructor: a string,
an already-built list, or a generator expression. -/
inductive SeqArg
  | ofStr (s : Str)
  | ofList (l : List PyNum)
  | ofGen

/-- attributeSeq(arg) as converter.py calls it: the constructor immediately
evaluates `arg.split(',')`, so a list or generator argument — which has no
`split` method — raises AttributeError before anything else happens. -/
def attributeSeqOfArg : SeqArg → Except PyErr (List PyNum)
  | .ofStr s => aseqOfStr s
  | _ => .error .attributeErr

/-- PBSSeq(arg): same shape, `arg.split(';')` on a non-string raises
AttributeError. -/
def pbsOfArg : SeqArg → Except PyErr (List PyNum)
  | .ofStr s => pbsOfStr s
  | _ => .error .attributeErr

/-- Python list indexing with IndexError. -/
def getF (l : List Str) (j : ℕ) : Except PyErr Str :=
  match l.get? j with
  | some v => .ok v
  | none => .error .indexErr

/-- The synthesized rest note of nn2ust's gap handling. -/
def restNote (len : ℤ) : UNote :=
  [("Lyric".data, Val.str "R".data),
   ("Length".data, Val.num (.i len)),
   ("NoteNum".data, Val.num (.i 60))]

/-- One note row of converter.nn2ust: whitespace-split the row, read start
and duration, advance the running length (except on the first row), fill a
gap with a rest note, build the pitch list `(50 - sample) / 10` (a float
with one decimal digit) and thin it when `shortenPitch` is nonzero, then
build the ustNote dict — whose VBR/PBW/PBY/PBS entries call the sequence
constructors on lists and generators, raising AttributeError. -/
def nnRow (chinese : Bool) (shortenPitch : ℕ) (st : ℤ × Bool × List UNote) (row : Str) :
    Except PyErr (ℤ × Bool × List UNote) := do
  let fields := words (strip row)
  let noteStart ← intOfStr (← getF fields 2)
  let curLen ← intOfStr (← getF fields 3)
  let (len0, initialParse, acc) := st
  let len1 := if initialParse then len0 else len0 + curLen
  let (acc1, len2) ←
    if len1 < noteStart then do
      let r ← mkNote (restNote ((noteStart - len1) * 60))
      pure (acc ++ [r], len1 + (noteStart - len1))
    else pure (acc, len1)
  let rawPitch ← (sSplit ',' (← getF fields 12)).mapM intOfStr
  let pitch0 := rawPitch.map fun p => PyNum.f (50 - p) 1
  let pitch1 := if shortenPitch ≠ 0 then shortenFilter shortenPitch pitch0 else pitch0
  let lyric ← if chinese then getF fields 0 else getF fields 1
  let nn4 ← intOfStr (← getF fields 4)
  let v8 ← intOfStr (← getF fields 8)
  let v10 ← intOfStr (← getF fields 10)
  let v9 ← intOfStr (← getF fields 9)
  let vbr ← attributeSeqOfArg (.ofList [.i v8, .i v10, .i v9, .i 0, .i 0, .i 0, .i 0, .i 0])
  let pbw ← attributeSeqOfArg .ofGen
  let pby ← attributeSeqOfArg (.ofList pitch1)
  let pbsv ← pbsOfArg (.ofList [.i 0, .i 0])
  let note ← mkNote
    [("Lyric".data, Val.str lyric),
     ("Length".data, Val.num (.i (curLen * 60))),
     ("NoteNum".data, Val.num (.i (83 - nn4))),
     ("VBR".data, Val.aseq vbr),
     ("PBW".data, Val.aseq pbw),
     ("PBY".data, Val.aseq pby),
     ("PBS".data, Val.pbs pbsv)]
  pure (len2, false, acc1 ++ [note])

/-- converter.nn2ust (src/converter.py): the first line's first field is
the float tempo, the second line (the note count) is read and discarded,
and every remaining line is a note row. -/
def nn2ust (lines : List Str) (chinese : Bool) (shortenPitch : ℕ) : Except PyErr UstFile := do
  match lines with
  | [] => throw PyErr.stopIter
  | header :: rest =>
    match rest with
    | [] => throw PyErr.stopIter
    | _cnt :: rows => do
      let tempo ← floatOfStr (← getF (words (strip header)) 0)
      let (_, _, acc) ← rows.foldlM (nnRow chinese shortenPitch) ((0 : ℤ), true, ([] : List UNote))
      pure (mkUstFile acc [] [("Tempo".data, Val.num tempo)])

/-- A float built by this library always carries at least one decimal
digit (numeric literals and tenths); ints are always in normal form. -/
def normNum : PyNum → Bool
  | .i _ => true
  | .f _ e => decide (1 ≤ e)

/-- Normal form of an envelope member. -/
def normItem : EnvItem → Bool
  | .n v => normNum v
  | .pct => true

/-- A tag-delimited file whose settings block carries the oversized tempo
that the source's comment says should be forced down to 120. -/
def c1BadLines : List Str :=
  ["[#VERSION]", "UST Version1.2", "[#SETTING]", "Tempo=500000.00", "Tracks=1"].map String.data

/-- The same file with an in-range tempo. -/
def c1OkLines : List Str :=
  ["[#VERSION]", "UST Version1.2", "[#SETTING]", "Tempo=120.0", "Tracks=1"].map String.data

/-- A minimal valid tag-delimited file: version, settings, one note,
terminator. -/
def c4Lines : List Str :=
  ["[#VERSION]", "UST Version1.2", "[#SETTING]", "Tempo=120.0",
   "[#0000]", "Lyric=la", "Length=480", "NoteNum=60", "[#TRACKEND]"].map String.data

/-- The spec's end-to-end fixed-column example: header tempo 120.0, a
discarded note-count line, and two note rows with start 60 and 64,
duration 4, pitch index 33 (thirteen whitespace-separated fields each). -/
def nnLines : List Str :=
  ["120.0 4/4", "2",
   "la la 60 4 33 0 0 0 8 8 8 0 50",
   "la la 64 4 33 0 0 0 8 8 8 0 50"].map String.data

/-- A one-note Sequence used to exercise quantize concretely. -/
def qFile : UstFile :=
  { notes := [[("Lyric".data, Val.str "la".data),
               ("Length".data, Val.num (.i 121)),
               ("NoteNum".data, Val.num (.i 60))]],
    version := defaultVersion,
    settings := [("Tempo".data, Val.str "120.0".data)] }

/-- The note list expected from quantizing `qFile` with standard 120. -/
def qFileOut : UstFile :=
  { qFile with notes := [[("Lyric".data, Val.str "la".data),
                          ("Length".data, Val.num (.i 120)),
                          ("NoteNum".data, Val.num (.i 60))]] }

/-- Two distinct one-attribute notes for the insertion experiments. -/
def noteA : UNote := [("Lyric".data, Val.str "a".data)]

/-- See `noteA`. -/
def noteB : UNote := [("Lyric".data, Val.str "b".data)]

/-- An empty Sequence. -/
def emptyU : UstFile := { notes := [], version := defaultVersion, settings := [] }

theorem sSplitP_ne_nil (p : Char → Bool) : ∀ s : Str, sSplitP p s ≠ []
  | [] => by simp [sSplitP]
  | c :: cs => by
    simp only [sSplitP]
    split
    · simp
    · split <;> simp

theorem sSplitP_all_false (p : Char → Bool) : ∀ s : Str, (∀ d ∈ s, p d = false) → sSplitP p s = [s]
  | [], _ => rfl
  | c :: cs, h => by
    have hc : p c = false := h c (by simp)
    have ih := sSplitP_all_false p cs (fun d hd => h d (by simp [hd]))
    simp [sSplitP, hc, ih]

theorem sSplitP_append (p : Char → Bool) (c : Char) (hc : p c = true) :
    ∀ (a b : Str), (∀ d ∈ a, p d = false) → sSplitP p (a ++ c :: b) = a :: sSplitP p b
  | [], b, _ => by simp [sSplitP, hc]
  | x :: a2, b, h => by
    have hx : p x = false := h x (by simp)
    have ih := sSplitP_append p c hc a2 b (fun d hd => h d (by simp [hd]))
    simp [sSplitP, hx, ih]

theorem sSplit_single (c : Char) (s : Str) (h : c ∉ s) : sSplit c s = [s] := by
  refine sSplitP_all_false _ s fun d hd => ?_
  simp only [beq_eq_false_iff_ne, ne_eq]
  rintro rfl
  exact h hd

theorem sSplit_sJoin (c : Char) : ∀ ts : List Str, ts ≠ [] → (∀ t ∈ ts, c ∉ t) →
    sSplit c (sJoin c ts) = ts
  | [], hne, _ => absurd rfl hne
  | [t], _, h => sSplit_single c t (h t (by simp))
  | t1 :: t2 :: r, _, h => by
    have ih := sSplit_sJoin c (t2 :: r) (by simp) (fun t ht => h t (by simp [ht]))
    have h1 : ∀ d ∈ t1, (d == c) = false := by
      intro d hd
      simp only [beq_eq_false_iff_ne, ne_eq]
      rintro rfl
      exact h t1 (by simp) hd
    show sSplitP (fun d => d == c) (t1 ++ c :: sJoin c (t2 :: r)) = t1 :: t2 :: r
    rw [sSplitP_append _ c (by simp) t1 _ h1]
    exact congrArg (t1 :: ·) ih

theorem digitVal_digitChar (n : ℕ) (h : n < 10) : digitVal (digitChar n) = some n := by
  interval_cases n <;> rfl

theorem natDigits_foldl (fuel : ℕ) : ∀ n a : ℕ, n < fuel →
    (natDigits fuel n).foldl digStep (some a) = some (a * 10 ^ (natDigits fuel n).length + n) := by
  induction fuel with
  | zero => omega
  | succ fuel ih =>
    intro n a h
    by_cases h10 : n < 10
    · simp [natDigits, h10, digStep, digitVal_digitChar n h10]
    · have hrec : n / 10 < fuel := by omega
      simp only [natDigits, h10, if_false, List.foldl_append, List.length_append]
      rw [ih (n / 10) a hrec]
      simp only [List.foldl_cons, List.foldl_nil, digStep,
        digitVal_digitChar (n % 10) (by omega : n % 10 < 10), Option.bind_some,
        Option.map_some, List.length_cons, List.length_nil]
      have hm := Nat.div_add_mod n 10
      have hx : (a * 10 ^ (natDigits fuel (n / 10)).length + n / 10) * 10 + n % 10
          = a * 10 ^ ((natDigits fuel (n / 10)).length + 1) + (10 * (n / 10) + n % 10) := by
        ring
      have hy : ((some (a * 10 ^ (natDigits fuel (n / 10)).length + n / 10)).bind fun z =>
          Option.map (fun d => z * 10 + d) (some (n % 10)))
          = some ((a * 10 ^ (natDigits fuel (n / 10)).length + n / 10) * 10 + n % 10) := rfl
      rw [hy, hx, hm]

theorem digitsVal_natToStr (n : ℕ) : digitsVal (natToStr n) = some n := by
  have := natDigits_foldl (n + 1) n 0 (by omega)
  simpa [digitsVal, natToStr] using this

theorem mem_natDigits (fuel : ℕ) : ∀ n c, c ∈ natDigits fuel n → (digitVal c).isSome := by
  induction fuel with
  | zero => simp [natDigits]
  | succ fuel ih =>
    intro n c hc
    by_cases h10 : n < 10
    · simp only [natDigits, h10, if_true, List.mem_singleton] at hc
      subst hc
      simp [digitVal_digitChar n h10]
    · simp only [natDigits, h10, if_false, List.mem_append, List.mem_singleton] at hc
      rcases hc with hc | hc
      · exact ih (n / 10) c hc
      · subst hc
        simp [digitVal_digitChar (n % 10) (by omega)]

theorem not_mem_natDigits (fuel n : ℕ) (c : Char) (hc : digitVal c = none) :
    c ∉ natDigits fuel n := by
  intro hmem
  have := mem_natDigits fuel n c hmem
  simp [hc] at this

theorem natDigits_ne_nil (fuel n : ℕ) (h : n < fuel) : natDigits fuel n ≠ [] := by
  cases fuel with
  | zero => omega
  | succ fuel =>
    by_cases h10 : n < 10 <;> simp [natDigits, h10]

theorem natToStr_ne_nil (n : ℕ) : natToStr n ≠ [] := natDigits_ne_nil (n + 1) n (by omega)

theorem natDigits_fuel_eq : ∀ f1 f2 n : ℕ, n < f1 → n < f2 → natDigits f1 n = natDigits f2 n := by
  intro f1
  induction f1 with
  | zero => omega
  | succ f1 ih =>
    intro f2 n h1 h2
    cases f2 with
    | zero => omega
    | succ f2 =>
      by_cases h10 : n < 10
      · simp [natDigits, h10]
      · simp only [natDigits, h10, if_false]
        rw [ih f2 (n / 10) (by omega) (by omega)]

theorem natToStr_length_le : ∀ k n : ℕ, 1 ≤ k → n < 10 ^ k → (natToStr n).length ≤ k := by
  intro k
  induction k with
  | zero => omega
  | succ k ih =>
    intro n _ hn
    by_cases h10 : n < 10
    · simp only [natToStr, natDigits, h10, if_true, List.length_singleton]
      omega
    · have hk : 1 ≤ k := by
        by_contra hk0
        have : k = 0 := by omega
        subst this
        simp at hn
        omega
      have hdiv : n / 10 < 10 ^ k := by
        have h1 : (10 : ℕ) ^ (k + 1) = 10 ^ k * 10 := pow_succ 10 k
        omega
      have hrw : natToStr n = natDigits (n / 10 + 1) (n / 10) ++ [digitChar (n % 10)] := by
        show natDigits (n + 1) n = _
        have : natDigits (n + 1) n = natDigits n (n / 10) ++ [digitChar (n % 10)] := by
          simp [natDigits, h10]
        rw [this, natDigits_fuel_eq n (n / 10 + 1) (n / 10) (by omega) (by omega)]
      rw [hrw]
      have := ih (n / 10) hk hdiv
      simp only [natToStr] at this
      simp only [List.length_append, List.length_singleton]
      omega

theorem digitsVal_padLeft (k : ℕ) (s : Str) : digitsVal (padLeft k s) = digitsVal s := by
  simp only [padLeft, digitsVal, List.foldl_append]
  congr 1
  induction (k - s.length) with
  | zero => rfl
  | succ z ih => simpa [List.replicate_succ, digStep, digitVal] using ih

theorem padLeft_length (k : ℕ) (s : Str) : (padLeft k s).length = max k s.length := by
  simp [padLeft]
  omega

theorem parseUnsigned_natToStr (n : ℕ) : parseUnsigned (natToStr n) = some (.i n) := by
  have h1 : sSplit '.' (natToStr n) = [natToStr n] :=
    sSplit_single _ _ (not_mem_natDigits _ _ _ rfl)
  have h2 : (natToStr n).isEmpty = false := by
    cases h : natToStr n with
    | nil => exact absurd h (natToStr_ne_nil n)
    | cons c cs => rfl
  simp [parseUnsigned, h1, h2, digitsVal_natToStr]

theorem parseNum_intToStr (n : ℤ) : parseNum (intToStr n) = some (.i n) := by
  by_cases h : n < 0
  · have h1 : intToStr n = '-' :: natToStr n.natAbs := by simp [intToStr, h]
    have h2 : parseNum ('-' :: natToStr n.natAbs) = (parseUnsigned (natToStr n.natAbs)).map PyNum.neg := by
      simp [parseNum]
    rw [h1, h2, parseUnsigned_natToStr]
    have h3 : -(n.natAbs : ℤ) = n := by omega
    show some (PyNum.neg (PyNum.i (n.natAbs : ℤ))) = some (PyNum.i n)
    rw [show PyNum.neg (PyNum.i (n.natAbs : ℤ)) = PyNum.i (-(n.natAbs : ℤ)) from rfl, h3]
  · have hs : intToStr n = natToStr n.toNat := by simp [intToStr, h]
    obtain ⟨c, cs, hcs⟩ : ∃ c cs, natToStr n.toNat = c :: cs := by
      cases hx : natToStr n.toNat with
      | nil => exact absurd hx (natToStr_ne_nil _)
      | cons c cs => exact ⟨c, cs, rfl⟩
    have hcd : (digitVal c).isSome := mem_natDigits _ _ c (by rw [natToStr] at hcs; rw [hcs]; simp)
    have hcne : (c == '-') = false := by
      simp only [beq_eq_false_iff_ne, ne_eq]
      rintro rfl
      simp [digitVal] at hcd
    rw [hs, hcs]
    simp only [parseNum, hcne, Bool.false_eq_true, if_false]
    rw [← hcs, parseUnsigned_natToStr]
    have : (n.toNat : ℤ) = n := by omega
    rw [this]

theorem not_mem_padLeft_natToStr (k n : ℕ) (c : Char) (hc : digitVal c = none) :
    c ∉ padLeft k (natToStr n) := by
  intro hmem
  simp only [padLeft, List.mem_append, List.mem_replicate] at hmem
  rcases hmem with ⟨_, rfl⟩ | hmem
  · simp [digitVal] at hc
  · exact not_mem_natDigits _ _ _ hc hmem

theorem parseUnsigned_fltToStr (m : ℤ) (e : ℕ) (hm : 0 ≤ m) (he : 1 ≤ e) :
    parseUnsigned (fltToStr m e) = some (.f m e) := by
  have hA : ∀ d ∈ natToStr (m.toNat / 10 ^ e), (d == '.') = false := by
    intro d hd
    simp only [beq_eq_false_iff_ne, ne_eq]
    rintro rfl
    exact not_mem_natDigits _ _ '.' rfl hd
  have h1 : sSplit '.' (fltToStr m e)
      = [natToStr (m.toNat / 10 ^ e), padLeft e (natToStr (m.toNat % 10 ^ e))] := by
    show sSplitP _ _ = _
    rw [fltToStr, sSplitP_append _ '.' (by simp) _ _ hA]
    exact congrArg _ (sSplit_single '.' _ (not_mem_padLeft_natToStr _ _ '.' rfl))
  have h2 : (natToStr (m.toNat / 10 ^ e)).isEmpty = false := by
    cases h : natToStr (m.toNat / 10 ^ e) with
    | nil => exact absurd h (natToStr_ne_nil _)
    | cons c cs => rfl
  have hlen : (padLeft e (natToStr (m.toNat % 10 ^ e))).length = e := by
    rw [padLeft_length]
    have hmod : m.toNat % 10 ^ e < 10 ^ e := Nat.mod_lt _ (by positivity)
    have := natToStr_length_le e (m.toNat % 10 ^ e) he hmod
    omega
  rw [parseUnsigned, h1]
  simp only [h2, Bool.false_and, if_false, digitsVal_natToStr, digitsVal_padLeft, hlen]
  have hmax : max 1 e = e := by omega
  rw [hmax]
  have hv : ((m.toNat / 10 ^ e : ℕ) : ℤ) * 10 ^ e + ((m.toNat % 10 ^ e : ℕ) : ℤ) * 10 ^ (e - e) = m := by
    have hdm := Nat.div_add_mod m.toNat (10 ^ e)
    have h0 : e - e = 0 := by omega
    rw [h0, pow_zero, mul_one]
    have h3 : ((m.toNat / 10 ^ e : ℕ) : ℤ) * 10 ^ e + ((m.toNat % 10 ^ e : ℕ) : ℤ)
        = ((10 ^ e * (m.toNat / 10 ^ e) + m.toNat % 10 ^ e : ℕ) : ℤ) := by
      push_cast
      ring
    rw [h3, hdm, Int.toNat_of_nonneg hm]
  rw [hv]
  simp

theorem toStr_f_head (m : ℤ) (e : ℕ) :
    ∃ c cs, fltToStr m e = c :: cs ∧ (digitVal c).isSome := by
  obtain ⟨c, cs, hcs⟩ : ∃ c cs, natToStr (m.toNat / 10 ^ e) = c :: cs := by
    cases hx : natToStr (m.toNat / 10 ^ e) with
    | nil => exact absurd hx (natToStr_ne_nil _)
    | cons c cs => exact ⟨c, cs, rfl⟩
  refine ⟨c, cs ++ '.' :: padLeft e (natToStr (m.toNat % 10 ^ e)), ?_, ?_⟩
  · rw [fltToStr, hcs]
    simp
  · exact mem_natDigits _ _ c (by rw [natToStr] at hcs; rw [hcs]; simp)

theorem parseNum_toStr (v : PyNum) (hv : normNum v = true) : parseNum v.toStr = some v := by
  cases v with
  | i n => exact parseNum_intToStr n
  | f m e =>
    have he : 1 ≤ e := by simpa [normNum] using hv
    by_cases hm : m < 0
    · have hts : PyNum.toStr (.f m e) = '-' :: fltToStr (-m) e := by simp [PyNum.toStr, hm]
      rw [hts]
      simp only [parseNum]
      rw [if_pos (by simp)]
      rw [parseUnsigned_fltToStr (-m) e (by omega) he]
      simp [PyNum.neg]
    · have hts : PyNum.toStr (.f m e) = fltToStr m e := by simp [PyNum.toStr, hm]
      obtain ⟨c, cs, hcs, hcd⟩ := toStr_f_head m e
      have hcne : (c == '-') = false := by
        simp only [beq_eq_false_iff_ne, ne_eq]
        rintro rfl
        simp [digitVal] at hcd
      rw [hts, hcs]
      simp only [parseNum, hcne, Bool.false_eq_true, if_false]
      rw [← hcs, parseUnsigned_fltToStr m e (by omega) he]

theorem mem_toStr (v : PyNum) (c : Char) (hc : c ∈ v.toStr) :
    (digitVal c).isSome ∨ c = '-' ∨ c = '.' := by
  have hpad : ∀ k n : ℕ, c ∈ padLeft k (natToStr n) → (digitVal c).isSome := by
    intro k n hm
    simp only [padLeft, List.mem_append, List.mem_replicate] at hm
    rcases hm with ⟨_, rfl⟩ | hm
    · simp [digitVal]
    · exact mem_natDigits _ _ c hm
  have hflt : ∀ m : ℤ, ∀ e : ℕ, c ∈ fltToStr m e → (digitVal c).isSome ∨ c = '-' ∨ c = '.' := by
    intro m e hm
    simp only [fltToStr, List.mem_append, List.mem_cons] at hm
    rcases hm with hm | rfl | hm
    · exact Or.inl (mem_natDigits _ _ c hm)
    · simp
    · exact Or.inl (hpad _ _ hm)
  cases v with
  | i n =>
    simp only [PyNum.toStr, intToStr] at hc
    split at hc
    · rcases List.mem_cons.mp hc with rfl | hc
      · simp
      · exact Or.inl (mem_natDigits _ _ c hc)
    · exact Or.inl (mem_natDigits _ _ c hc)
  | f m e =>
    simp only [PyNum.toStr] at hc
    split at hc
    · rcases List.mem_cons.mp hc with rfl | hc
      · simp
      · exact hflt _ _ hc
    · exact hflt _ _ hc

theorem toStr_not_mem (v : PyNum) (c : Char) (hd : digitVal c = none)
    (h1 : c ≠ '-') (h2 : c ≠ '.') : c ∉ v.toStr := by
  intro hc
  rcases mem_toStr v c hc with h | h | h
  · simp [hd] at h
  · exact h1 h
  · exact h2 h

theorem toStr_ne_nil (v : PyNum) : v.toStr ≠ [] := by
  cases v with
  | i n =>
    simp only [PyNum.toStr, intToStr]
    split
    · simp
    · exact natToStr_ne_nil _
  | f m e =>
    simp only [PyNum.toStr]
    split
    · simp
    · simp only [fltToStr, ne_eq, List.append_eq_nil]
      intro hx
      exact natToStr_ne_nil _ hx.1

theorem toStr_ne_pct (v : PyNum) : v.toStr ≠ ['%'] := by
  intro h
  have : '%' ∈ v.toStr := by rw [h]; simp
  exact toStr_not_mem v '%' rfl (by decide) (by decide) this

theorem mapM_map_ok {α β : Type} (g : α → β) (F : β → Except PyErr α) :
    ∀ l : List α, (∀ x ∈ l, F (g x) = .ok x) → (l.map g).mapM F = .ok l := by
  intro l
  induction l with
  | nil => intro _; rfl
  | cons a as ih =>
    intro h
    rw [List.map_cons, List.mapM_cons, h a (by simp), ih fun x hx => h x (by simp [hx])]
    rfl

theorem mapM_ok_forall2 {α β : Type} (F : α → Except PyErr β) :
    ∀ (l : List α) (r : List β), l.mapM F = .ok r →
      List.Forall₂ (fun a b => F a = .ok b) l r := by
  intro l
  induction l with
  | nil =>
    intro r h
    have : r = [] := by
      rw [List.mapM_nil] at h
      cases h
      rfl
    subst this
    exact List.Forall₂.nil
  | cons a as ih =>
    intro r h
    rw [List.mapM_cons] at h
    cases hFa : F a with
    | error err => rw [hFa] at h; exact absurd h (by simp [Bind.bind, Except.bind])
    | ok b =>
      rw [hFa] at h
      cases hrec : as.mapM F with
      | error err => rw [hrec] at h; exact absurd h (by simp [Bind.bind, Except.bind, Pure.pure])
      | ok bs =>
        rw [hrec] at h
        have : r = b :: bs := by
          have h2 : (Except.ok (b :: bs) : Except PyErr (List β)) = .ok r := h
          cases h2
          rfl
        subst this
        exact List.Forall₂.cons hFa (ih bs hrec)

theorem toStr_isEmpty (v : PyNum) : v.toStr.isEmpty = false := by
  cases h : v.toStr with
  | nil => exact absurd h (toStr_ne_nil v)
  | cons c cs => rfl

theorem aseqOfStr_toStr (l : List PyNum) (hne : l ≠ []) (h : ∀ v ∈ l, normNum v = true) :
    aseqOfStr (aseqToStr l) = .ok l := by
  have hsplit : sSplit ',' (sJoin ',' (l.map PyNum.toStr)) = l.map PyNum.toStr := by
    refine sSplit_sJoin ',' _ (by simpa using hne) ?_
    intro t ht
    obtain ⟨v, _, rfl⟩ := List.mem_map.mp ht
    exact toStr_not_mem v ',' rfl (by decide) (by decide)
  unfold aseqOfStr aseqToStr
  rw [hsplit]
  refine mapM_map_ok _ _ l ?_
  intro v hv
  simp only [toStr_isEmpty v, Bool.false_eq_true, if_false]
  rw [evalNumE, parseNum_toStr v (h v hv)]

theorem eseqOfStr_toStr (l : List EnvItem) (hne : l ≠ []) (h : ∀ it ∈ l, normItem it = true) :
    eseqOfStr (eseqToStr l) = .ok l := by
  have hsplit : sSplit ',' (sJoin ',' (l.map envTok)) = l.map envTok := by
    refine sSplit_sJoin ',' _ (by simpa using hne) ?_
    intro t ht
    obtain ⟨it, _, rfl⟩ := List.mem_map.mp ht
    cases it with
    | pct => simp [envTok]
    | n v => exact toStr_not_mem v ',' rfl (by decide) (by decide)
  unfold eseqOfStr eseqToStr
  rw [hsplit]
  refine mapM_map_ok _ _ l ?_
  intro it hit
  cases it with
  | pct => simp [envTok]
  | n v =>
    have h1 : envTok (.n v) ≠ ['%'] := toStr_ne_pct v
    simp only [envTok] at h1 ⊢
    rw [if_neg h1, evalNumE, parseNum_toStr v (h (.n v) hit)]
    rfl

theorem pbsOfStr_toStr (l : List PyNum) (hne : l ≠ []) (hlen : l.length ≤ 2)
    (h : ∀ v ∈ l, normNum v = true) : pbsOfStr (pbsToStr l) = .ok l := by
  have hsplit : sSplit ';' (sJoin ';' (l.map PyNum.toStr)) = l.map PyNum.toStr := by
    refine sSplit_sJoin ';' _ (by simpa using hne) ?_
    intro t ht
    obtain ⟨v, _, rfl⟩ := List.mem_map.mp ht
    exact toStr_not_mem v ';' rfl (by decide) (by decide)
  have hmap : (l.map PyNum.toStr).mapM
      (fun t => if t.isEmpty then Except.ok (PyNum.i 0) else evalNumE t) = .ok l := by
    refine mapM_map_ok _ _ l ?_
    intro v hv
    simp only [toStr_isEmpty v, Bool.false_eq_true, if_false]
    rw [evalNumE, parseNum_toStr v (h v hv)]
  unfold pbsOfStr pbsToStr
  rw [hsplit]
  rw [hmap]
  show (if l.length > 2 then (throw PyErr.valueErr : Except PyErr (List PyNum)) else pure l)
      = Except.ok l
  rw [if_neg (by omega)]
  rfl

theorem dn_pos (v : PyNum) : 0 < v.dn := by
  cases v with
  | i n => simp [PyNum.dn]
  | f m e => simp only [PyNum.dn]; positivity

theorem findq_cons {β : Type} (q : Str × β) (rest : List (Str × β)) (k : Str) :
    List.find? (fun r => r.1 == k) (q :: rest)
      = if (q.1 == k) = true then some q else List.find? (fun r => r.1 == k) rest := by
  rw [List.find?_cons]
  cases hb : (q.1 == k) <;> simp [hb]

theorem aget_cons {β : Type} (p : Str × β) (rest : List (Str × β)) (k : Str) :
    aget (p :: rest) k = if (p.1 == k) = true then some p.2 else aget rest k := by
  rw [aget, findq_cons]
  cases hb : (p.1 == k) <;> simp [hb, aget]

theorem aget_upsert_self {β : Type} (k : Str) (v : β) :
    ∀ d : List (Str × β), aget (upsert d k v) k = some v := by
  intro d
  induction d with
  | nil =>
    rw [upsert, if_neg (by simp [List.find?])]
    rw [List.nil_append, aget_cons, if_pos (by simp)]
  | cons p rest ih =>
    cases hp : (p.1 == k) with
    | true =>
      rw [upsert, if_pos (by rw [findq_cons, if_pos hp]; rfl)]
      rw [List.map_cons, hp, if_pos rfl, aget_cons, if_pos (by simp)]
    | false =>
      have hfc : List.find? (fun r => r.1 == k) (p :: rest)
          = List.find? (fun r => r.1 == k) rest := by
        rw [findq_cons, if_neg (by simp [hp])]
      by_cases hrest : ((rest.find? fun r => r.1 == k)).isSome = true
      · rw [upsert, if_pos (by rw [hfc]; exact hrest)]
        have h1 : aget (upsert rest k v) k = some v := ih
        rw [upsert, if_pos hrest] at h1
        rw [List.map_cons, hp, if_neg (by simp), aget_cons, if_neg (by simp [hp])]
        exact h1
      · rw [upsert, if_neg (by rw [hfc]; exact hrest)]
        have h1 : aget (upsert rest k v) k = some v := ih
        rw [upsert, if_neg hrest] at h1
        rw [List.cons_append, aget_cons, if_neg (by simp [hp])]
        exact h1

theorem eraseK_cons {β : Type} (p : Str × β) (rest : List (Str × β)) (k : Str) :
    eraseK (p :: rest) k
      = if (p.1 == k) = true then eraseK rest k else p :: eraseK rest k := by
  rw [eraseK, List.filter_cons]
  cases hb : (p.1 == k) <;> simp [hb, eraseK]

theorem eraseK_map_upd {β : Type} (k : Str) (v : β) :
    ∀ d : List (Str × β),
      eraseK (d.map fun q => if (q.1 == k) = true then (k, v) else q) k = eraseK d k := by
  intro d
  induction d with
  | nil => rfl
  | cons p rest ih =>
    cases hp : (p.1 == k) with
    | true =>
      rw [List.map_cons, hp, if_pos rfl, eraseK_cons, if_pos (by simp), eraseK_cons, if_pos hp]
      exact ih
    | false =>
      rw [List.map_cons, hp, if_neg (by simp), eraseK_cons, if_neg (by simp [hp]),
        eraseK_cons, if_neg (by simp [hp]), ih]

theorem eraseK_append {β : Type} (d1 d2 : List (Str × β)) (k : Str) :
    eraseK (d1 ++ d2) k = eraseK d1 k ++ eraseK d2 k := by
  simp [eraseK, List.filter_append]

theorem eraseK_upsert {β : Type} (k : Str) (v : β) :
    ∀ d : List (Str × β), eraseK (upsert d k v) k = eraseK d k := by
  intro d
  rw [upsert]
  split
  · exact eraseK_map_upd k v d
  · rw [eraseK_append]
    have h2 : eraseK [(k, v)] k = [] := by
      rw [eraseK_cons]
      simp [eraseK]
    rw [h2, List.append_nil]

theorem rheDiv_bound (a b : ℤ) (hb : 0 < b) :
    -b ≤ 2 * rheDiv a b * b - 2 * a ∧ 2 * rheDiv a b * b - 2 * a ≤ b := by
  have h1 := Int.ediv_add_emod a b
  have h2 := Int.emod_nonneg a (by omega : b ≠ 0)
  have h3 := Int.emod_lt_of_pos a hb
  have e1 : 2 * (a - a / b * b) = 2 * (a % b) := by linear_combination (-2 : ℤ) * h1
  have e2 : 2 * (a / b) * b - 2 * a = -(2 * (a % b)) := by linear_combination (2 : ℤ) * h1
  have e3 : 2 * (a / b + 1) * b - 2 * a = 2 * b - 2 * (a % b) := by
    linear_combination (2 : ℤ) * h1
  unfold rheDiv
  simp only
  split
  · next hc =>
    rw [e1] at hc
    constructor <;> [rw [e2]; rw [e2]] <;> omega
  · next hc =>
    rw [e1] at hc
    split
    · next hc2 =>
      rw [e1] at hc2
      constructor <;> [rw [e3]; rw [e3]] <;> omega
    · next hc2 =>
      rw [e1] at hc2
      split
      · constructor <;> [rw [e2]; rw [e2]] <;> omega
      · constructor <;> [rw [e3]; rw [e3]] <;> omega

theorem rheDiv_mul_close (a b s : ℤ) (hb : 0 < b) (hs : 0 < s) :
    |((rheDiv a (b * s) * s : ℤ) : ℚ) - (a : ℚ) / (b : ℚ)| ≤ (s : ℚ) / 2 := by
  have hbs : (0 : ℤ) < b * s := mul_pos hb hs
  obtain ⟨h4, h5⟩ := rheDiv_bound a (b * s) hbs
  have hbq : (0 : ℚ) < (b : ℚ) := by exact_mod_cast hb
  have hsq : (0 : ℚ) < (s : ℚ) := by exact_mod_cast hs
  set R := rheDiv a (b * s) with hR
  have hX : ((R * s : ℤ) : ℚ) - (a : ℚ) / (b : ℚ)
      = ((2 * R * (b * s) - 2 * a : ℤ) : ℚ) / (2 * (b : ℚ)) := by
    push_cast
    field_simp
    ring
  rw [hX, abs_div, abs_of_pos (by positivity : (0 : ℚ) < 2 * (b : ℚ))]
  rw [div_le_div_iff₀ (by positivity) (by norm_num)]
  have habs : |((2 * R * (b * s) - 2 * a : ℤ) : ℚ)| ≤ (b : ℚ) * (s : ℚ) := by
    rw [abs_le]
    constructor
    · push_cast
      have : ((-(b * s) : ℤ) : ℚ) ≤ ((2 * R * (b * s) - 2 * a : ℤ) : ℚ) := by exact_mod_cast h4
      push_cast at this
      linarith
    · push_cast
      have : ((2 * R * (b * s) - 2 * a : ℤ) : ℚ) ≤ ((b * s : ℤ) : ℚ) := by exact_mod_cast h5
      push_cast at this
      linarith
  nlinarith [habs, hbq, hsq]

theorem insertIdx_take_drop {α : Type} (x : α) :
    ∀ (p : ℕ) (l : List α), p ≤ l.length → l.insertIdx p x = l.take p ++ x :: l.drop p
  | 0, l, _ => by simp
  | p + 1, [], h => by simp at h
  | p + 1, a :: l, h => by
    rw [List.insertIdx_succ_cons, List.take_succ_cons, List.drop_succ_cons,
      insertIdx_take_drop x p l (by simpa using h), List.cons_append]

theorem foldl_pyInsert (i : ℤ) (h0 : 0 ≤ i) :
    ∀ (ns l : List UNote), i.toNat ≤ l.length →
      ns.foldl (fun acc n => pyInsert acc i n) l
        = l.take i.toNat ++ ns.reverse ++ l.drop i.toNat
  | [], l, h => by simp
  | n :: rest, l, h => by
    have hpos : pyInsertPos l.length i = i.toNat := by
      rw [pyInsertPos, if_neg (by omega)]
      omega
    have hins : pyInsert l i n = l.take i.toNat ++ n :: l.drop i.toNat := by
      rw [pyInsert, hpos]
      exact insertIdx_take_drop n i.toNat l h
    have htk : (l.take i.toNat).length = i.toNat := by
      rw [List.length_take]
      omega
    rw [List.foldl_cons, hins,
      foldl_pyInsert i h0 rest (l.take i.toNat ++ n :: l.drop i.toNat)
        (by rw [List.length_append]; omega)]
    rw [List.take_left' htk, List.drop_left' htk]
    simp [List.append_assoc]

theorem pbsOfStr_ok_len (s : Str) (l : List PyNum) (h : pbsOfStr s = .ok l) :
    (sSplit ';' s).length ≤ 2 := by
  rw [pbsOfStr] at h
  cases hm : (sSplit ';' s).mapM
      (fun t => if t.isEmpty then Except.ok (PyNum.i 0) else evalNumE t) with
  | error e =>
    rw [hm] at h
    exact absurd h (by simp [Bind.bind, Except.bind])
  | ok l0 =>
    rw [hm] at h
    have hlen : (sSplit ';' s).length = l0.length :=
      (mapM_ok_forall2 _ _ _ hm).length_eq
    by_cases hgt : l0.length > 2
    · rw [show ((Except.ok l0 : Except PyErr (List PyNum)) >>= fun l1 =>
          if l1.length > 2 then throw PyErr.valueErr else pure l1)
          = (if l0.length > 2 then throw PyErr.valueErr else pure l0) from rfl] at h
      rw [if_pos hgt] at h
      exact absurd h (by simp [throw, throwThe, MonadExceptOf.throw])
    · omega

/-- C1: the claim says the parser's returned settings mapping is coerced
(Tempo/Tracks numeric) with an oversized Tempo replaced by 120 and every
other key preserved.  The code instead raises TypeError on an oversized
Tempo (the settings variable is rebound to the bare int 120 and the next
`in` test explodes), and on an in-range Tempo it returns the raw,
uncoerced string-valued dict because the coerced dict is discarded. -/
theorem ustParse_settings_bug :
    ustParse c1BadLines = .error .typeErr ∧
    ustParse c1OkLines = .ok ([], ["UST Version1.2".data],
      [("Tempo".data, "120.0".data), ("Tracks".data, "1".data)]) :=
  ⟨rfl, rfl⟩

/-- C2 counterexample: converting the spec's end-to-end fixed-column
example does not succeed, so no Sequence with the claimed settings and
first note is produced. -/
theorem nn2ust_example_not_ok : (nn2ust nnLines true 0).isOk = false := rfl

/-- C2 (amended): the conversion of the end-to-end example fails with an
AttributeError, because the converter passes plain lists and a generator
to the attributeSeq/PBSSeq constructors, which immediately call `.split`
on their argument. -/
theorem nn2ust_example_attribute_error : nn2ust nnLines true 0 = .error .attributeErr := rfl

/-- C3 counterexample: with stride 3 on the PBY list [0,1,0,0,2,0]
(entries are the converter's one-decimal floats), the kept indices are
{0,1,3,4}: the zero at index 2 is dropped and the zero at index 3 (a
multiple of 3) is kept, contrary to the claim's kept set {0,1,2,4} /
dropped set {3,5}. -/
theorem shortenFilter_claim_example_false :
    shortenFilter 3 [PyNum.f 0 1, .f 10 1, .f 0 1, .f 0 1, .f 20 1, .f 0 1]
        = [PyNum.f 0 1, .f 10 1, .f 0 1, .f 20 1] ∧
      (([PyNum.f 0 1, .f 10 1, .f 0 1, .f 0 1, .f 20 1, .f 0 1] : List PyNum).enum.filter
          (fun p => !(p.2.eqNum (PyNum.i 0) && p.1 % 3 != 0))).map Prod.fst = [0, 1, 3, 4] ∧
      ([0, 1, 3, 4] : List ℕ) ≠ [0, 1, 2, 4] :=
  ⟨by decide, by decide, by decide⟩

/-- Value-level zero test agrees with the converter's `pitch == 0`. -/
theorem eqNum_zero (v : PyNum) : v.eqNum (PyNum.i 0) = decide (v.val = 0) := by
  cases v with
  | i n =>
    simp [PyNum.eqNum, PyNum.val, PyNum.nm, PyNum.dn, decide_eq_decide]
  | f m e =>
    have h10 : ((10 : ℚ) ^ e) ≠ 0 := by positivity
    simp [PyNum.eqNum, PyNum.val, PyNum.nm, PyNum.dn, decide_eq_decide,
      div_eq_zero_iff, h10]

/-- C3 (amended): for stride k > 0 the thinning keeps exactly the entries
that are non-zero or sit at an index divisible by k; on [0,1,0,0,2,0] with
k = 3 it keeps the entries at indices {0,1,3,4} (value list [0,1,0,2]) and
drops those at indices {2,5}. -/
theorem shortenFilter_keeps_nonzero_or_aligned (k : ℕ) (_hk : 0 < k) (l : List PyNum) :
    shortenFilter k l
        = (l.enum.filter fun p => decide (¬p.2.val = 0 ∨ k ∣ p.1)).map Prod.snd ∧
      shortenFilter 3 [PyNum.f 0 1, .f 10 1, .f 0 1, .f 0 1, .f 20 1, .f 0 1]
        = [PyNum.f 0 1, .f 10 1, .f 0 1, .f 20 1] ∧
      (([PyNum.f 0 1, .f 10 1, .f 0 1, .f 0 1, .f 20 1, .f 0 1] : List PyNum).enum.filter
          (fun p => !(p.2.eqNum (PyNum.i 0) && p.1 % 3 != 0))).map Prod.fst = [0, 1, 3, 4] := by
  refine ⟨?_, by decide, by decide⟩
  rw [shortenFilter]
  congr 1
  apply List.filter_congr
  intro p _
  rw [eqNum_zero]
  by_cases h1 : p.2.val = 0 <;> by_cases h2 : p.1 % k = 0 <;>
    simp [h1, h2, Nat.dvd_iff_mod_eq_zero]

/-- C3 witness: the amended theorem applied at stride 3. -/
theorem shortenFilter_keeps_witness :
    shortenFilter 3 [PyNum.f 0 1, .f 10 1, .f 0 1, .f 0 1, .f 20 1, .f 0 1]
      = [PyNum.f 0 1, .f 10 1, .f 0 1, .f 20 1] :=
  (shortenFilter_keeps_nonzero_or_aligned 3 (by decide) []).2.1

/-- C4: the round-trip law fails on the code.  On a minimal valid file
with one note and a `[#TRACKEND]` terminator, the serializer emits no
`[#TRACKEND]` line, and re-parsing its output yields a Sequence with zero
notes instead of one — the parser only flushes the final note on the
terminator the serializer never writes. -/
theorem ustRepr_roundtrip_drops_last_note :
    List.elem "[#TRACKEND]".data c4Lines = true ∧
      (ustOpen c4Lines).map (fun u =>
        (u.notes.length, List.elem "[#TRACKEND]".data (ustRepr u),
          (ustOpen (ustRepr u)).map fun g => g.notes.length))
        = .ok (1, false, .ok 0) :=
  ⟨rfl, rfl⟩

/-- C5: for a positive standard, quantize keeps every note (same count, in
order), rewrites only the Length key, and sets it to an integer multiple
of the standard that lies within half a standard of the old value —
round-half-to-even rounding of Length/standard times the standard. -/
theorem quantize_rounds_and_preserves_notes (u g : UstFile) (s : ℤ)
    (hs : 0 < s) (hq : quantize u s = .ok g) :
    g.notes.length = u.notes.length ∧
      List.Forall₂ (fun old new =>
        eraseK new "Length".data = eraseK old "Length".data ∧
          ∃ m : ℤ, aget new "Length".data = some (Val.num (.i (m * s))) ∧
            ∀ L : PyNum, aget old "Length".data = some (Val.num L) →
              |((m * s : ℤ) : ℚ) - L.val| ≤ (s : ℚ) / 2) u.notes g.notes := by
  rw [quantize, if_neg (by omega)] at hq
  cases hm : u.notes.mapM (quantizeNote s) with
  | error e =>
    rw [hm] at hq
    exact absurd hq (by simp [Except.map])
  | ok ns =>
    rw [hm] at hq
    have hg : g = { u with notes := ns } := by
      simp only [Except.map, Except.ok.injEq] at hq
      exact hq.symm
    subst hg
    have hf := mapM_ok_forall2 (quantizeNote s) u.notes ns hm
    refine ⟨hf.length_eq.symm, ?_⟩
    refine List.Forall₂.imp ?_ hf
    intro old new hqn
    rw [quantizeNote] at hqn
    cases hL : aget old "Length".data with
    | none =>
      rw [hL] at hqn
      exact absurd hqn (by simp [throw, throwThe, MonadExceptOf.throw, Bind.bind, Except.bind])
    | some v =>
      rw [hL] at hqn
      cases v with
      | num L =>
        have hnew : new = upsert old "Length".data
            (Val.num (.i (rheDiv L.nm (L.dn * s) * s))) := by
          simp only [Bind.bind, Except.bind, Pure.pure, Except.pure, Except.ok.injEq] at hqn
          exact hqn.symm
        subst hnew
        refine ⟨eraseK_upsert _ _ _, rheDiv L.nm (L.dn * s), aget_upsert_self _ _ _, ?_⟩
        intro L2 hL2
        obtain rfl : L = L2 := by simpa using hL2
        rw [PyNum.val]
        exact_mod_cast rheDiv_mul_close L.nm L.dn s (dn_pos L) hs
      | str s2 =>
        exact absurd hqn (by simp [throw, throwThe, MonadExceptOf.throw, Bind.bind, Except.bind])
      | aseq l2 =>
        exact absurd hqn (by simp [throw, throwThe, MonadExceptOf.throw, Bind.bind, Except.bind])
      | eseq l2 =>
        exact absurd hqn (by simp [throw, throwThe, MonadExceptOf.throw, Bind.bind, Except.bind])
      | pbs l2 =>
        exact absurd hqn (by simp [throw, throwThe, MonadExceptOf.throw, Bind.bind, Except.bind])

/-- C5 witness: quantizing a one-note Sequence (Length 121) with standard
120 yields Length 120 and keeps the note. -/
theorem quantize_rounds_witness :
    quantize qFile 120 = .ok qFileOut ∧ qFileOut.notes.length = qFile.notes.length :=
  ⟨rfl, (quantize_rounds_and_preserves_notes qFile qFileOut 120 (by decide) rfl).1⟩

/-- C6 counterexample: constructing an OffsetPair from the one-field
string "5" succeeds (with a single member), although the claim says any
field count other than exactly two must fail. -/
theorem pbs_single_field_ok : pbsOfStr "5".data = .ok [PyNum.i 5] := rfl

/-- C6 (amended): OffsetPair construction splits on semicolons with empty
tokens read as 0, and fails exactly when the field count exceeds two — a
successful construction has at most two fields (one is allowed), and
three semicolon-delimited fields raise ValueError. -/
theorem pbs_field_count_rule (s : Str) :
    ((pbsOfStr s).isOk = true → (sSplit ';' s).length ≤ 2) ∧
      pbsOfStr "1;2;3".data = .error .valueErr ∧
      pbsOfStr ";".data = .ok [PyNum.i 0, PyNum.i 0] := by
  refine ⟨?_, rfl, rfl⟩
  intro hok
  cases hres : pbsOfStr s with
  | error e =>
    rw [hres] at hok
    simp [Except.isOk, Except.toBool] at hok
  | ok l => exact pbsOfStr_ok_len s l hres

/-- C6 witness: the amended theorem applied to the two-field string "7;8". -/
theorem pbs_field_count_witness : (sSplit ';' "7;8".data).length ≤ 2 :=
  (pbs_field_count_rule "7;8".data).1 rfl

/-- C7: parsing the serialization of any attributeSeq, envelopeSeq or
PBSSeq value reproduces the value, the envelope's `%` sentinel verbatim.
The hypotheses restrict to constructible values: a sequence built by the
library is never empty, its floats carry at least one decimal digit, and
an OffsetPair never holds more than two members. -/
theorem seq_parse_serialize_roundtrip (a : List PyNum) (e : List EnvItem) (p : List PyNum)
    (ha : a ≠ []) (he : e ≠ []) (hp : p ≠ []) (hp2 : p.length ≤ 2)
    (hna : ∀ v ∈ a, normNum v = true) (hne : ∀ it ∈ e, normItem it = true)
    (hnp : ∀ v ∈ p, normNum v = true) :
    aseqOfStr (aseqToStr a) = .ok a ∧ eseqOfStr (eseqToStr e) = .ok e ∧
      pbsOfStr (pbsToStr p) = .ok p :=
  ⟨aseqOfStr_toStr a ha hna, eseqOfStr_toStr e he hne, pbsOfStr_toStr p hp hp2 hnp⟩

/-- C7 witness: the round trip at concrete values — a mixed int/float
attribute sequence, an envelope whose first member is the `%` sentinel,
and a two-member offset pair. -/
theorem seq_parse_serialize_roundtrip_witness :
    aseqOfStr (aseqToStr [PyNum.i 1, PyNum.f 5 1]) = .ok [PyNum.i 1, PyNum.f 5 1] ∧
      eseqOfStr (eseqToStr [EnvItem.pct, EnvItem.n (PyNum.i 0)])
        = .ok [EnvItem.pct, EnvItem.n (PyNum.i 0)] ∧
      pbsOfStr (pbsToStr [PyNum.i (-3), PyNum.f 25 1]) = .ok [PyNum.i (-3), PyNum.f 25 1] :=
  seq_parse_serialize_roundtrip [PyNum.i 1, PyNum.f 5 1] [EnvItem.pct, EnvItem.n (PyNum.i 0)]
    [PyNum.i (-3), PyNum.f 25 1] (by decide) (by decide) (by decide) (by decide)
    (by decide) (by decide) (by decide)

/-- C8 counterexample: a note whose Lyric is two spaces is truthy — the
source only blacklists the empty string, one single space, "r" and "R",
so not every whitespace-only lyric is falsy. -/
theorem noteBool_double_space_truthy :
    noteBool [("Lyric".data, Val.str "  ".data)] = .ok true := rfl

/-- C8 (amended): a note is truthy exactly when its Lyric is none of the
four literal markers "", " " (one single space), "r", "R"; in particular
Lyric="R" is falsy and Lyric="la" is truthy, but other whitespace-only
lyrics are truthy. -/
theorem noteBool_iff_not_rest_marker (n : UNote) (s : Str)
    (h : aget n "Lyric".data = some (.str s)) :
    (noteBool n = .ok true ↔
      (s ≠ "".data ∧ s ≠ " ".data ∧ s ≠ "r".data ∧ s ≠ "R".data)) := by
  rw [noteBool, h]
  simp only [Except.ok.injEq, decide_eq_true_eq, ne_eq, Val.str.injEq]

/-- C8 witness: the amended characterization applied to Lyric="la". -/
theorem noteBool_la_witness :
    noteBool [("Lyric".data, Val.str "la".data)] = .ok true :=
  (noteBool_iff_not_rest_marker [("Lyric".data, Val.str "la".data)] "la".data rfl).mpr
    (by decide)

/-- C9: ustFile.__add__ never returns a combined Sequence: with a ustFile
operand the isinstance check passes and the body evaluates
`self._noteList + other` — a Python list plus a non-list — which raises
TypeError for every pair of Sequences. -/
theorem ustAdd_always_type_error (u g : UstFile) :
    ustAdd u (.ofFile g) = .error .typeErr := rfl

/-- C10 counterexample: insertMany at an index beyond the end of the list
appends the notes in iteration order, not reversed — each insert clamps to
the current length.  With two distinct notes inserted at index 5 of an
empty Sequence the result is [noteA, noteB], not its reverse. -/
theorem insertMany_beyond_end_keeps_order :
    (insertMany emptyU 5 [noteA, noteB]).notes = [noteA, noteB] ∧ noteA ≠ noteB :=
  ⟨rfl, by decide⟩

/-- C10 (amended): for an index i with 0 ≤ i ≤ length, insertMany places
every note at the same position, so the inserted block appears in the
reverse of its iteration order between the original prefix and suffix. -/
theorem insertMany_reverses_at_valid_index (u : UstFile) (i : ℤ) (ns : List UNote)
    (h0 : 0 ≤ i) (hle : i.toNat ≤ u.notes.length) :
    (insertMany u i ns).notes
      = u.notes.take i.toNat ++ ns.reverse ++ u.notes.drop i.toNat := by
  rw [insertMany]
  exact foldl_pyInsert i h0 ns u.notes hle

/-- C10 witness: inserting [noteA, noteB] at index 0 of an empty Sequence
yields [noteB, noteA]. -/
theorem insertMany_reverses_witness :
    (insertMany emptyU 0 [noteA, noteB]).notes = [noteB, noteA] := by
  have h := insertMany_reverses_at_valid_index emptyU 0 [noteA, noteB] (by decide) (by decide)
  simpa using h
